import Mathlib

/-!
Verification of the face-blur subsystem of the `remoun-site` repository.

The development shallowly embeds the region-interaction, clustering, and
render/blur logic of the face-blur tool:

* geometry of drag sessions (`moveStep`, `resizeStep`) from
  `handleGlobalMouseMove`;
* freehand drawing (`candidateRect`, `commitDrawnRegion`) from
  `handleCanvasMouseMove` / `handleCanvasMouseUp`;
* batch file intake (`handleFilesSelected`) from the file-selection handler;
* face detection post-processing (`detectFaces`) and greedy person clustering
  (`clusterFacesByPerson`) from `image-utils.js`;
* person-level selection toggling (`togglePersonSelection`);
* the render engine (`applyPixelation`, `applyGaussianBlur`,
  `applyBlurToFaces`) from `blur-utils`.

JavaScript numbers are modelled as rationals (`ℚ`); `Math.round` is
`jsRound` (floor of `q + 1/2`, which is what `Math.round` computes for the
non-negative and ordinary negative values arising here).  Canvas pixel data
is modelled as a function from integer coordinates to RGBA byte quadruples.
-/

/-- JavaScript `Math.round`: round half toward positive infinity. -/
def jsRound (q : ℚ) : ℤ := ⌊q + 1/2⌋

/-- An axis-aligned box with rational (JS-number) coordinates, the shape
`{x, y, width, height}` used throughout the source. -/
structure QBox where
  x : ℚ
  y : ℚ
  width : ℚ
  height : ℚ
  deriving DecidableEq, Repr

/-- Minimum box dimension enforced by resize drags (`const minSize = 30` in
`handleGlobalMouseMove`). -/
def minSize : ℚ := 30

/-- One pointer-move step of a *move* drag session, from
`handleGlobalMouseMove`:
`box.x = Math.max(0, Math.min(coords.x - offset.x, imgWidth - box.width))`
and the analogous update for `y`.  `coords` is the pointer position in
natural image coordinates and `offset` the pointer-to-box offset captured at
session start. -/
def moveStep (imgWidth imgHeight : ℚ) (offset coords : ℚ × ℚ) (box : QBox) :
    QBox :=
  { box with
    x := max 0 (min (coords.1 - offset.1) (imgWidth - box.width))
    y := max 0 (min (coords.2 - offset.2) (imgHeight - box.height)) }

/-- The east-edge update of a resize step (`corner.includes('e')` branch):
`box.width = Math.min(imgWidth - box.x, Math.max(minSize, coords.x - box.x))`. -/
def eUpdate (imgWidth cx : ℚ) (box : QBox) : QBox :=
  { box with width := min (imgWidth - box.x) (max minSize (cx - box.x)) }

/-- The west-edge update of a resize step (`corner.includes('w')` branch):
`newX = Math.max(0, Math.min(coords.x, box.x + box.width - minSize));
box.width = box.x + box.width - newX; box.x = newX`. -/
def wUpdate (cx : ℚ) (box : QBox) : QBox :=
  let newX := max 0 (min cx (box.x + box.width - minSize))
  { box with x := newX, width := box.x + box.width - newX }

/-- The south-edge update of a resize step (`corner.includes('s')` branch). -/
def sUpdate (imgHeight cy : ℚ) (box : QBox) : QBox :=
  { box with height := min (imgHeight - box.y) (max minSize (cy - box.y)) }

/-- The north-edge update of a resize step (`corner.includes('n')` branch). -/
def nUpdate (cy : ℚ) (box : QBox) : QBox :=
  let newY := max 0 (min cy (box.y + box.height - minSize))
  { box with y := newY, height := box.y + box.height - newY }

/-- One pointer-move step of a *resize* drag session, from
`handleGlobalMouseMove`.  The corner string (for example `'ne'` or `'w'`) is
modelled as a list of characters; the four edge updates are applied
sequentially in the source's order east, west, south, north, each guarded by
`corner.includes(...)`. -/
def resizeStep (imgWidth imgHeight : ℚ) (corner : List Char)
    (coords : ℚ × ℚ) (box : QBox) : QBox :=
  let b1 := if corner.contains 'e' then eUpdate imgWidth coords.1 box else box
  let b2 := if corner.contains 'w' then wUpdate coords.1 b1 else b1
  let b3 := if corner.contains 's' then sUpdate imgHeight coords.2 b2 else b2
  if corner.contains 'n' then nUpdate coords.2 b3 else b3

/-- The horizontal part of the drag invariant: the box lies within the image
horizontally and respects the minimum width. -/
def XInv (imgWidth : ℚ) (box : QBox) : Prop :=
  0 ≤ box.x ∧ box.x + box.width ≤ imgWidth ∧ minSize ≤ box.width

/-- The vertical part of the drag invariant. -/
def YInv (imgHeight : ℚ) (box : QBox) : Prop :=
  0 ≤ box.y ∧ box.y + box.height ≤ imgHeight ∧ minSize ≤ box.height

theorem eUpdate_xinv (imgWidth cx : ℚ) (box : QBox)
    (h : XInv imgWidth box) : XInv imgWidth (eUpdate imgWidth cx box) := by
  obtain ⟨h0, hle, hmin⟩ := h
  refine ⟨h0, ?_, ?_⟩
  · simp only [eUpdate]
    have : min (imgWidth - box.x) (max minSize (cx - box.x)) ≤
        imgWidth - box.x := min_le_left _ _
    linarith
  · simp only [eUpdate, le_min_iff, le_max_iff]
    constructor
    · linarith
    · left; rfl

theorem eUpdate_y (imgWidth cx : ℚ) (box : QBox) :
    (eUpdate imgWidth cx box).y = box.y ∧
      (eUpdate imgWidth cx box).height = box.height := ⟨rfl, rfl⟩

theorem eUpdate_x (imgWidth cx : ℚ) (box : QBox) :
    (eUpdate imgWidth cx box).x = box.x := rfl

theorem wUpdate_xinv (cx imgWidth : ℚ) (box : QBox)
    (h : XInv imgWidth box) : XInv imgWidth (wUpdate cx box) := by
  obtain ⟨h0, hle, hmin⟩ := h
  have hsum : minSize ≤ box.x + box.width := by linarith
  refine ⟨?_, ?_, ?_⟩
  · simp only [wUpdate]; exact le_max_left 0 _
  · simp only [wUpdate]
    have : (0 : ℚ) ≤ max 0 (min cx (box.x + box.width - minSize)) :=
      le_max_left 0 _
    linarith
  · simp only [wUpdate]
    have : max 0 (min cx (box.x + box.width - minSize)) ≤
        box.x + box.width - minSize := by
      apply max_le
      · linarith
      · exact min_le_right _ _
    linarith

theorem wUpdate_y (cx : ℚ) (box : QBox) :
    (wUpdate cx box).y = box.y ∧ (wUpdate cx box).height = box.height :=
  ⟨rfl, rfl⟩

theorem wUpdate_sum (cx : ℚ) (box : QBox) :
    (wUpdate cx box).x + (wUpdate cx box).width = box.x + box.width := by
  simp only [wUpdate]; ring

theorem sUpdate_yinv (imgHeight cy : ℚ) (box : QBox)
    (h : YInv imgHeight box) : YInv imgHeight (sUpdate imgHeight cy box) := by
  obtain ⟨h0, hle, hmin⟩ := h
  refine ⟨h0, ?_, ?_⟩
  · simp only [sUpdate]
    have : min (imgHeight - box.y) (max minSize (cy - box.y)) ≤
        imgHeight - box.y := min_le_left _ _
    linarith
  · simp only [sUpdate, le_min_iff, le_max_iff]
    constructor
    · linarith
    · left; rfl

theorem sUpdate_x (imgHeight cy : ℚ) (box : QBox) :
    (sUpdate imgHeight cy box).x = box.x ∧
      (sUpdate imgHeight cy box).width = box.width := ⟨rfl, rfl⟩

theorem sUpdate_y (imgHeight cy : ℚ) (box : QBox) :
    (sUpdate imgHeight cy box).y = box.y := rfl

theorem nUpdate_yinv (cy imgHeight : ℚ) (box : QBox)
    (h : YInv imgHeight box) : YInv imgHeight (nUpdate cy box) := by
  obtain ⟨h0, hle, hmin⟩ := h
  have hsum : minSize ≤ box.y + box.height := by linarith
  refine ⟨?_, ?_, ?_⟩
  · simp only [nUpdate]; exact le_max_left 0 _
  · simp only [nUpdate]
    have : (0 : ℚ) ≤ max 0 (min cy (box.y + box.height - minSize)) :=
      le_max_left 0 _
    linarith
  · simp only [nUpdate]
    have : max 0 (min cy (box.y + box.height - minSize)) ≤
        box.y + box.height - minSize := by
      apply max_le
      · linarith
      · exact min_le_right _ _
    linarith

theorem nUpdate_x (cy : ℚ) (box : QBox) :
    (nUpdate cy box).x = box.x ∧ (nUpdate cy box).width = box.width :=
  ⟨rfl, rfl⟩

theorem nUpdate_sum (cy : ℚ) (box : QBox) :
    (nUpdate cy box).y + (nUpdate cy box).height = box.y + box.height := by
  simp only [nUpdate]; ring

theorem resizeStep_xinv (imgWidth imgHeight : ℚ) (corner : List Char)
    (coords : ℚ × ℚ) (box : QBox) (hx : XInv imgWidth box) :
    XInv imgWidth (resizeStep imgWidth imgHeight corner coords box) := by
  have step1 : ∀ b : QBox, XInv imgWidth b →
      XInv imgWidth (if corner.contains 'e' then eUpdate imgWidth coords.1 b else b) := by
    intro b hb; split
    · exact eUpdate_xinv _ _ _ hb
    · exact hb
  have step2 : ∀ b : QBox, XInv imgWidth b →
      XInv imgWidth (if corner.contains 'w' then wUpdate coords.1 b else b) := by
    intro b hb; split
    · exact wUpdate_xinv _ _ _ hb
    · exact hb
  have step3 : ∀ b : QBox, XInv imgWidth b →
      XInv imgWidth (if corner.contains 's' then sUpdate imgHeight coords.2 b else b) := by
    intro b hb; split
    · exact ⟨hb.1, hb.2.1, hb.2.2⟩
    · exact hb
  have step4 : ∀ b : QBox, XInv imgWidth b →
      XInv imgWidth (if corner.contains 'n' then nUpdate coords.2 b else b) := by
    intro b hb; split
    · exact ⟨hb.1, hb.2.1, hb.2.2⟩
    · exact hb
  exact step4 _ (step3 _ (step2 _ (step1 box hx)))

theorem resizeStep_yinv (imgWidth imgHeight : ℚ) (corner : List Char)
    (coords : ℚ × ℚ) (box : QBox) (hy : YInv imgHeight box) :
    YInv imgHeight (resizeStep imgWidth imgHeight corner coords box) := by
  have step1 : ∀ b : QBox, YInv imgHeight b →
      YInv imgHeight (if corner.contains 'e' then eUpdate imgWidth coords.1 b else b) := by
    intro b hb; split
    · exact ⟨hb.1, hb.2.1, hb.2.2⟩
    · exact hb
  have step2 : ∀ b : QBox, YInv imgHeight b →
      YInv imgHeight (if corner.contains 'w' then wUpdate coords.1 b else b) := by
    intro b hb; split
    · exact ⟨hb.1, hb.2.1, hb.2.2⟩
    · exact hb
  have step3 : ∀ b : QBox, YInv imgHeight b →
      YInv imgHeight (if corner.contains 's' then sUpdate imgHeight coords.2 b else b) := by
    intro b hb; split
    · exact sUpdate_yinv _ _ _ hb
    · exact hb
  have step4 : ∀ b : QBox, YInv imgHeight b →
      YInv imgHeight (if corner.contains 'n' then nUpdate coords.2 b else b) := by
    intro b hb; split
    · exact nUpdate_yinv _ _ _ hb
    · exact hb
  exact step4 _ (step3 _ (step2 _ (step1 box hy)))

/-- C2 (amended): a resize pointer-move step keeps both dimensions at or
above the 30px minimum and holds the opposite edge fixed, *provided* the box
lies within the image bounds and already satisfies the minimum dimensions.
(The unamended claim, quantified over arbitrary boxes, fails: when the box
hugs the image border and is itself thinner than 30px, the bounds clamp
caps the new dimension below the minimum — see the counterexample.)  The
conclusion also records the opposite-edge-fixed guarantees: an east-only
resize keeps `x`, a west-only resize keeps `x + width`, a south-only resize
keeps `y`, and a north-only resize keeps `y + height`. -/
theorem resizeStep_min_dims_of_invariant (imgWidth imgHeight : ℚ)
    (corner : List Char) (coords : ℚ × ℚ) (box : QBox)
    (hx0 : 0 ≤ box.x) (hy0 : 0 ≤ box.y)
    (hxw : box.x + box.width ≤ imgWidth)
    (hyh : box.y + box.height ≤ imgHeight)
    (hw : minSize ≤ box.width) (hh : minSize ≤ box.height) :
    minSize ≤ (resizeStep imgWidth imgHeight corner coords box).width ∧
    minSize ≤ (resizeStep imgWidth imgHeight corner coords box).height ∧
    0 ≤ (resizeStep imgWidth imgHeight corner coords box).x ∧
    0 ≤ (resizeStep imgWidth imgHeight corner coords box).y ∧
    (resizeStep imgWidth imgHeight corner coords box).x +
        (resizeStep imgWidth imgHeight corner coords box).width ≤ imgWidth ∧
    (resizeStep imgWidth imgHeight corner coords box).y +
        (resizeStep imgWidth imgHeight corner coords box).height ≤ imgHeight ∧
    (corner.contains 'e' = true → corner.contains 'w' = false →
      (resizeStep imgWidth imgHeight corner coords box).x = box.x) ∧
    (corner.contains 'w' = true → corner.contains 'e' = false →
      (resizeStep imgWidth imgHeight corner coords box).x +
        (resizeStep imgWidth imgHeight corner coords box).width =
          box.x + box.width) ∧
    (corner.contains 's' = true → corner.contains 'n' = false →
      (resizeStep imgWidth imgHeight corner coords box).y = box.y) ∧
    (corner.contains 'n' = true → corner.contains 's' = false →
      (resizeStep imgWidth imgHeight corner coords box).y +
        (resizeStep imgWidth imgHeight corner coords box).height =
          box.y + box.height) := by
  have hxinv := resizeStep_xinv imgWidth imgHeight corner coords box
    ⟨hx0, hxw, hw⟩
  have hyinv := resizeStep_yinv imgWidth imgHeight corner coords box
    ⟨hy0, hyh, hh⟩
  refine ⟨hxinv.2.2, hyinv.2.2, hxinv.1, hyinv.1, hxinv.2.1, hyinv.2.1,
    ?_, ?_, ?_, ?_⟩
  · intro he hnw
    simp only [resizeStep, he, hnw, Bool.false_eq_true, reduceIte]
    split <;> split <;> rfl
  · intro hwc hne
    simp only [resizeStep, hwc, hne, Bool.false_eq_true, reduceIte]
    split <;> split <;> exact wUpdate_sum _ _
  · intro hs hnn
    simp only [resizeStep, hs, hnn, Bool.false_eq_true, reduceIte]
    split <;> split <;> rfl
  · intro hn hns
    simp only [resizeStep, hn, hns, Bool.false_eq_true, reduceIte]
    rw [nUpdate_sum]
    split <;> split <;> rfl

/-- Witness for `resizeStep_min_dims_of_invariant` at a concrete input: a
40×40 box at (10, 10) in a 100×100 image, north-east resize with the pointer
far past the opposite corner. -/
theorem resizeStep_min_dims_witness :
    minSize ≤ (resizeStep 100 100 ['n', 'e'] (500, 500) ⟨10, 10, 40, 40⟩).width ∧
    minSize ≤ (resizeStep 100 100 ['n', 'e'] (500, 500) ⟨10, 10, 40, 40⟩).height := by
  have h := resizeStep_min_dims_of_invariant 100 100 ['n', 'e'] (500, 500)
    ⟨10, 10, 40, 40⟩ (by norm_num) (by norm_num) (by norm_num) (by norm_num)
    (by norm_num [minSize]) (by norm_num [minSize])
  exact ⟨h.1, h.2.1⟩

/-- C2 counterexample: the claim as stated fails.  A 21×50 manual region at
x = 79 in a 100×100 image (a legal region: manual regions only require
dimensions above 20px, and the box lies within bounds) resized east with the
pointer far to the right ends with width 21 < 30, because the bounds clamp
`Math.min(imgWidth - box.x, ...)` overrides the minimum-size clamp. -/
theorem resizeStep_small_box_breaks_min :
    ¬ minSize ≤ (resizeStep 100 100 ['e'] (200, 0) ⟨79, 0, 21, 50⟩).width := by
  simp [resizeStep, eUpdate, minSize]
  norm_num

/-- C3 (amended): a move pointer-move step clamps the box inside the image
bounds on both axes and leaves the dimensions unchanged, *provided* the box
is no larger than the image (`width ≤ imgWidth` and `height ≤ imgHeight`).
(The unamended claim, quantified over every box, fails for a box larger
than the image: the clamp `Math.max(0, Math.min(...))` then settles on 0 and
the far edge still overflows — see the counterexample.) -/
theorem moveStep_clamps_within_bounds (imgWidth imgHeight : ℚ)
    (offset coords : ℚ × ℚ) (box : QBox)
    (hw : box.width ≤ imgWidth) (hh : box.height ≤ imgHeight) :
    0 ≤ (moveStep imgWidth imgHeight offset coords box).x ∧
    0 ≤ (moveStep imgWidth imgHeight offset coords box).y ∧
    (moveStep imgWidth imgHeight offset coords box).x +
      (moveStep imgWidth imgHeight offset coords box).width ≤ imgWidth ∧
    (moveStep imgWidth imgHeight offset coords box).y +
      (moveStep imgWidth imgHeight offset coords box).height ≤ imgHeight ∧
    (moveStep imgWidth imgHeight offset coords box).width = box.width ∧
    (moveStep imgWidth imgHeight offset coords box).height = box.height := by
  refine ⟨le_max_left 0 _, le_max_left 0 _, ?_, ?_, rfl, rfl⟩
  · simp only [moveStep]
    have : max 0 (min (coords.1 - offset.1) (imgWidth - box.width)) ≤
        imgWidth - box.width := by
      apply max_le
      · linarith
      · exact min_le_right _ _
    linarith
  · simp only [moveStep]
    have : max 0 (min (coords.2 - offset.2) (imgHeight - box.height)) ≤
        imgHeight - box.height := by
      apply max_le
      · linarith
      · exact min_le_right _ _
    linarith

/-- Witness for `moveStep_clamps_within_bounds` at a concrete input: dragging
a 40×40 box far past the bottom-right corner of a 100×100 image pins it to
(60, 60). -/
theorem moveStep_clamps_witness :
    0 ≤ (moveStep 100 100 (0, 0) (500, 500) ⟨10, 10, 40, 40⟩).x ∧
    (moveStep 100 100 (0, 0) (500, 500) ⟨10, 10, 40, 40⟩).x +
      (moveStep 100 100 (0, 0) (500, 500) ⟨10, 10, 40, 40⟩).width ≤ 100 := by
  have h := moveStep_clamps_within_bounds 100 100 (0, 0) (500, 500)
    ⟨10, 10, 40, 40⟩ (by norm_num) (by norm_num)
  exact ⟨h.1, h.2.2.1⟩

/-- C3 counterexample: for a box wider than the image (width 200 in a
100-wide image) the clamped move yields x = 0 yet x + width = 200 > 100, so
the claim quantified over *every* box fails. -/
theorem moveStep_oversized_box_escapes :
    ¬ ((moveStep 100 100 (0, 0) (0, 0) ⟨0, 0, 200, 50⟩).x +
        (moveStep 100 100 (0, 0) (0, 0) ⟨0, 0, 200, 50⟩).width ≤ 100) := by
  norm_num [moveStep]

/-- A detected-face record as built by `detectFaces` in `image-utils.js` and
enriched with `imageId` and `thumbnail` by `handleFilesSelected`.  The id
strings (`face-${Date.now()}-${index}`) are modelled as naturals; the
thumbnail data-URL and gender label are opaque tokens; `landmarks` carries
no logic and is omitted. -/
structure Face where
  id : ℕ
  imageId : ℕ
  box : QBox
  age : ℤ
  gender : ℕ
  genderProbability : ℚ
  isChild : Bool
  selected : Bool
  descriptor : List ℚ
  thumbnail : ℕ
  deriving DecidableEq, Repr

/-- A manually drawn region (`{id, box, selected: true, isManual: true}` in
`handleCanvasMouseUp`). -/
structure ManualRegion where
  id : ℕ
  box : QBox
  selected : Bool
  isManual : Bool
  deriving DecidableEq, Repr

/-- The live candidate rectangle maintained by `handleCanvasMouseMove`:
`{x: Math.min(drawStart.x, coords.x), y: Math.min(drawStart.y, coords.y),
width: Math.abs(coords.x - drawStart.x), height: Math.abs(coords.y - drawStart.y)}`. -/
def candidateRect (drawStart coords : ℚ × ℚ) : QBox :=
  { x := min drawStart.1 coords.1
    y := min drawStart.2 coords.2
    width := |coords.1 - drawStart.1|
    height := |coords.2 - drawStart.2| }

/-- The commit step of `handleCanvasMouseUp`: when a drawing session is
active and has a candidate rectangle, append a new selected manual region iff
both dimensions exceed 20px; otherwise leave the region list untouched.
`newId` stands for the generated `manual-${Date.now()}` identifier. -/
def commitDrawnRegion (isDrawing : Bool) (currentRect : Option QBox)
    (newId : ℕ) (manualRegions : List ManualRegion) : List ManualRegion :=
  match isDrawing, currentRect with
  | true, some r =>
      if 20 < r.width ∧ 20 < r.height then
        manualRegions ++ [{ id := newId, box := r, selected := true, isManual := true }]
      else manualRegions
  | _, _ => manualRegions

/-- C6: the live candidate rectangle is the axis-aligned bounding box of the
start and current points, independent of drag direction; on pointer-up a
candidate with width or height ≤ 20 is discarded silently (the manual-region
list is returned unchanged), while a candidate with both dimensions > 20 is
appended as exactly one new manual region with `selected = true`. -/
theorem drawCommit_threshold (drawStart coords : ℚ × ℚ) (isDrawing : Bool)
    (newId : ℕ) (manualRegions : List ManualRegion) :
    (candidateRect coords drawStart = candidateRect drawStart coords ∧
      (candidateRect drawStart coords).x = min drawStart.1 coords.1 ∧
      (candidateRect drawStart coords).y = min drawStart.2 coords.2 ∧
      (candidateRect drawStart coords).x +
        (candidateRect drawStart coords).width = max drawStart.1 coords.1 ∧
      (candidateRect drawStart coords).y +
        (candidateRect drawStart coords).height = max drawStart.2 coords.2) ∧
    ((candidateRect drawStart coords).width ≤ 20 ∨
        (candidateRect drawStart coords).height ≤ 20 →
      commitDrawnRegion true (some (candidateRect drawStart coords)) newId
          manualRegions = manualRegions) ∧
    (20 < (candidateRect drawStart coords).width ∧
        20 < (candidateRect drawStart coords).height →
      commitDrawnRegion true (some (candidateRect drawStart coords)) newId
          manualRegions =
        manualRegions ++
          [{ id := newId, box := candidateRect drawStart coords,
             selected := true, isManual := true }]) ∧
    (isDrawing = false →
      commitDrawnRegion isDrawing (some (candidateRect drawStart coords)) newId
          manualRegions = manualRegions) := by
  refine ⟨⟨?_, rfl, rfl, ?_, ?_⟩, ?_, ?_, ?_⟩
  · simp only [candidateRect, min_comm, abs_sub_comm]
  · simp only [candidateRect]
    rw [← max_sub_min_eq_abs]
    ring
  · simp only [candidateRect]
    rw [← max_sub_min_eq_abs]
    ring
  · intro h
    simp only [commitDrawnRegion]
    rw [if_neg]
    intro hc
    rcases h with h | h
    · exact absurd hc.1 (not_lt.mpr h)
    · exact absurd hc.2 (not_lt.mpr h)
  · intro h
    simp only [commitDrawnRegion]
    rw [if_pos h]
  · intro h
    subst h
    rfl

/-- Witness for `drawCommit_threshold`: the spec's backwards drag from
(10, 10) to (5, 5) yields the candidate `{x: 5, y: 5, w: 5, h: 5}` and, since
5 ≤ 20, commits nothing. -/
theorem drawCommit_threshold_witness :
    candidateRect (10, 10) (5, 5) = ⟨5, 5, 5, 5⟩ ∧
    commitDrawnRegion true (some (candidateRect (10, 10) (5, 5))) 0 [] = [] := by
  have h := drawCommit_threshold (10, 10) (5, 5) true 0 []
  refine ⟨?_, h.2.1 (by norm_num [candidateRect])⟩
  simp only [candidateRect]
  norm_num

/-- A raw detection as returned by the external face-api engine: bounding
box, estimated age, gender with confidence, and the 128-dimensional
descriptor.  The engine is the spec's black-box collaborator; only the
post-processing applied to its output is code under verification. -/
structure RawDetection where
  box : QBox
  age : ℚ
  gender : ℕ
  genderProbability : ℚ
  descriptor : List ℚ
  deriving DecidableEq, Repr

/-- The per-detection mapping of `detectFaces` in `image-utils.js`, with the
running index made explicit (the source uses `detections.map((detection,
index) => ...)` and an id of `face-${Date.now()}-${index}`, modelled as the
index itself):
`age = Math.round(detection.age); isChild = age < 18; selected = isChild`. -/
def detectFacesFrom : ℕ → List RawDetection → List Face
  | _, [] => []
  | index, detection :: rest =>
      let age := jsRound detection.age
      let isChild := decide (age < 18)
      { id := index
        imageId := 0
        box := detection.box
        age := age
        gender := detection.gender
        genderProbability := detection.genderProbability
        isChild := isChild
        selected := isChild
        descriptor := detection.descriptor
        thumbnail := 0 } :: detectFacesFrom (index + 1) rest

/-- `detectFaces` post-processing: map each raw detection to a face record. -/
def detectFaces (detections : List RawDetection) : List Face :=
  detectFacesFrom 0 detections

theorem detectFacesFrom_forall (index : ℕ) (detections : List RawDetection) :
    List.Forall₂
      (fun (d : RawDetection) (f : Face) =>
        f.age = jsRound d.age ∧ f.isChild = decide (f.age < 18) ∧
          f.selected = f.isChild ∧ f.box = d.box ∧
          f.descriptor = d.descriptor)
      detections (detectFacesFrom index detections) := by
  induction detections generalizing index with
  | nil => exact List.Forall₂.nil
  | cons d rest ih =>
      exact List.Forall₂.cons ⟨rfl, rfl, rfl, rfl, rfl⟩ (ih (index + 1))

/-- C10: every face record produced by `detectFaces` has
`isChild = (age < 18)` — with `age` the rounded engine estimate — and its
initial `selected` flag equal to `isChild`, so detected children start
selected for blurring and detected adults start unselected.  The records are
in one-to-one order-preserving correspondence with the raw detections. -/
theorem detectFaces_child_preselected (detections : List RawDetection) :
    List.Forall₂
      (fun (d : RawDetection) (f : Face) =>
        f.age = jsRound d.age ∧ f.isChild = decide (f.age < 18) ∧
          f.selected = f.isChild ∧ f.box = d.box ∧
          f.descriptor = d.descriptor)
      detections (detectFaces detections) :=
  detectFacesFrom_forall 0 detections

/-- Squared Euclidean distance between two descriptors, the loop body of
`faceDistance` in `image-utils.js` (which returns
`Math.sqrt(sum of squared differences)`).  The source compares
`faceDistance(a, b) < threshold`; since both sides are non-negative for the
thresholds in use, this is equivalent to comparing the squares, which keeps
the embedding inside ℚ.  Descriptors are fixed-length (128) per detection
run, so the index loop is the pointwise zip. -/
def faceDistSq (descriptor1 descriptor2 : List ℚ) : ℚ :=
  ((descriptor1.zip descriptor2).map (fun p => (p.1 - p.2) * (p.1 - p.2))).sum

/-- A person cluster as built by `clusterFacesByPerson`: the generated
`person-${Date.now()}-${persons.length}` id is modelled as the running
cluster index. -/
structure Person where
  id : ℕ
  faces : List Face
  faceIds : List ℕ
  isChild : Bool
  avgAge : ℤ
  thumbnail : ℕ
  selected : Bool
  deriving DecidableEq, Repr

/-- The cluster record pushed at the end of an outer-loop iteration of
`clusterFacesByPerson`, for seed face `seed` and the similar faces `others`
collected by the inner scan (`personFaces = [seed, ...others]`, so
`personFaces[0] = seed`):
`isChild = childCount > personFaces.length / 2` (JS real division),
`avgAge = Math.round(sum of ages / length)`,
`selected = personFaces.some(f => f.selected)`. -/
def mkPerson (n : ℕ) (seed : Face) (others : List Face) : Person :=
  let personFaces := seed :: others
  { id := n
    faces := personFaces
    faceIds := personFaces.map (fun f => f.id)
    isChild :=
      decide ((((personFaces.filter (fun f => f.isChild)).length : ℚ)) >
        (personFaces.length : ℚ) / 2)
    avgAge := jsRound (((personFaces.map (fun f => f.age)).sum : ℚ) /
      (personFaces.length : ℚ))
    thumbnail := seed.thumbnail
    selected := personFaces.any (fun f => f.selected) }

/-- The inner scan of `clusterFacesByPerson`: walk the *full* face list,
skip faces already assigned, and collect (and mark assigned) every face
whose distance to the seed is below the threshold.  The JS `Set` of assigned
ids is modelled as a list with membership. -/
def innerScan (seed : Face) (threshold : ℚ) :
    List Face → List ℕ → List Face × List ℕ
  | [], assigned => ([], assigned)
  | otherFace :: rest, assigned =>
      if otherFace.id ∈ assigned then innerScan seed threshold rest assigned
      else if faceDistSq seed.descriptor otherFace.descriptor < threshold * threshold then
        let p := innerScan seed threshold rest (otherFace.id :: assigned)
        (otherFace :: p.1, p.2)
      else innerScan seed threshold rest assigned

/-- The outer loop of `clusterFacesByPerson`: `allFaces` is the full input
list (the inner scan rereads it), the last argument walks its tail, and `n`
counts the clusters already pushed. -/
def outerLoop (allFaces : List Face) (threshold : ℚ) :
    List Face → List ℕ → ℕ → List Person
  | [], _, _ => []
  | face :: rest, assigned, n =>
      if face.id ∈ assigned then outerLoop allFaces threshold rest assigned n
      else
        let scan := innerScan face threshold allFaces (face.id :: assigned)
        mkPerson n face scan.1 ::
          outerLoop allFaces threshold rest scan.2 (n + 1)

/-- `clusterFacesByPerson(faces, threshold = 0.6)` from `image-utils.js`
(0.6 = 3/5; the empty input short-circuits to `[]`, which the recursion
yields definitionally). -/
def clusterFacesByPerson (faces : List Face) (threshold : ℚ := 3/5) :
    List Person :=
  outerLoop faces threshold faces [] 0

/-- The concatenated member-id lists of a run of clusters. -/
def idsOf (persons : List Person) : List ℕ :=
  (persons.map (fun p => p.faceIds)).flatten

theorem idsOf_nil : idsOf [] = [] := rfl

theorem idsOf_cons (p : Person) (ps : List Person) :
    idsOf (p :: ps) = p.faceIds ++ idsOf ps := by
  simp [idsOf]

theorem mem_idsOf {z : ℕ} {ps : List Person} :
    z ∈ idsOf ps ↔ ∃ p ∈ ps, z ∈ p.faceIds := by
  simp [idsOf]

/-- Every cluster produced by the outer loop is literally `mkPerson` of its
seed and inner-scan pick. -/
theorem outerLoop_shape (allFaces : List Face) (threshold : ℚ) :
    ∀ (rest : List Face) (assigned : List ℕ) (n : ℕ),
      ∀ p ∈ outerLoop allFaces threshold rest assigned n,
        ∃ (m : ℕ) (seed : Face) (others : List Face),
          p = mkPerson m seed others := by
  intro rest
  induction rest with
  | nil => intro assigned n p hp; simp [outerLoop] at hp
  | cons face tail ih =>
      intro assigned n p hp
      by_cases hmem : face.id ∈ assigned
      · rw [outerLoop, if_pos hmem] at hp
        exact ih assigned n p hp
      · rw [outerLoop, if_neg hmem, List.mem_cons] at hp
        rcases hp with hp | hp
        · exact ⟨n, face, _, hp⟩
        · exact ih _ _ p hp

theorem mkPerson_isChild_iff (n : ℕ) (seed : Face) (others : List Face) :
    ((mkPerson n seed others).isChild = true ↔
      2 * ((mkPerson n seed others).faces.filter (fun f => f.isChild)).length >
        (mkPerson n seed others).faces.length) := by
  simp only [mkPerson, decide_eq_true_eq, gt_iff_lt]
  rw [div_lt_iff₀ (by norm_num : (0 : ℚ) < 2)]
  constructor
  · intro h
    have h2 : (seed :: others).length <
        ((seed :: others).filter (fun f => f.isChild)).length * 2 := by
      exact_mod_cast h
    omega
  · intro h
    have h2 : (seed :: others).length <
        ((seed :: others).filter (fun f => f.isChild)).length * 2 := by omega
    exact_mod_cast h2

/-- C7: a cluster returned by `clusterFacesByPerson` is flagged child iff
strictly more than half its member faces are flagged child (the source
computes `childCount > personFaces.length / 2` with JS real division), so an
even 50/50 split yields `isChild = false`. -/
theorem cluster_isChild_strict_majority (faces : List Face) (threshold : ℚ)
    (p : Person) (hp : p ∈ clusterFacesByPerson faces threshold) :
    (p.isChild = true ↔
      2 * (p.faces.filter (fun f => f.isChild)).length > p.faces.length) := by
  obtain ⟨m, seed, others, rfl⟩ :=
    outerLoop_shape faces threshold faces [] 0 p hp
  exact mkPerson_isChild_iff m seed others

/-- A child face used by the concrete witnesses. -/
def demoChildFace : Face :=
  { id := 1, imageId := 0, box := ⟨0, 0, 50, 50⟩, age := 10, gender := 0,
    genderProbability := 1, isChild := true, selected := true,
    descriptor := [0], thumbnail := 0 }

/-- An adult face with the same descriptor as `demoChildFace`, so the two
cluster together. -/
def demoAdultFace : Face :=
  { id := 2, imageId := 0, box := ⟨60, 0, 50, 50⟩, age := 40, gender := 0,
    genderProbability := 1, isChild := false, selected := false,
    descriptor := [0], thumbnail := 0 }

/-- Witness for `cluster_isChild_strict_majority`: a two-member cluster split
50/50 between child and adult, where the iff forces `isChild = false`. -/
theorem cluster_isChild_witness :
    ((mkPerson 0 demoChildFace [demoAdultFace]).isChild = true ↔
      2 * ((mkPerson 0 demoChildFace [demoAdultFace]).faces.filter
            (fun f => f.isChild)).length >
        (mkPerson 0 demoChildFace [demoAdultFace]).faces.length) :=
  cluster_isChild_strict_majority [demoChildFace, demoAdultFace] (3/5)
    (mkPerson 0 demoChildFace [demoAdultFace]) (by
      have h : clusterFacesByPerson [demoChildFace, demoAdultFace] (3/5) =
          [mkPerson 0 demoChildFace [demoAdultFace]] := by
        norm_num [clusterFacesByPerson, outerLoop, innerScan, faceDistSq,
          demoChildFace, demoAdultFace]
      rw [h]
      exact List.mem_singleton.mpr rfl)

/-- The id set returned by the inner scan is the starting set plus the ids
of the picked faces. -/
theorem innerScan_assigned_mem (seed : Face) (threshold : ℚ) :
    ∀ (L : List Face) (assigned : List ℕ) (z : ℕ),
      z ∈ (innerScan seed threshold L assigned).2 ↔
        z ∈ (innerScan seed threshold L assigned).1.map (fun f => f.id) ∨
          z ∈ assigned := by
  intro L
  induction L with
  | nil => intro assigned z; simp [innerScan]
  | cons o rest ih =>
      intro assigned z
      by_cases h1 : o.id ∈ assigned
      · rw [innerScan, if_pos h1]
        rw [ih assigned z]
      · rw [innerScan, if_neg h1]
        by_cases h2 : faceDistSq seed.descriptor o.descriptor <
            threshold * threshold
        · rw [if_pos h2]
          simp only [List.map_cons, List.mem_cons]
          rw [ih (o.id :: assigned) z]
          simp only [List.mem_cons]
          tauto
        · rw [if_neg h2]
          rw [ih assigned z]

/-- Every face picked by the inner scan occurs in the scanned list. -/
theorem innerScan_picked_sub (seed : Face) (threshold : ℚ) :
    ∀ (L : List Face) (assigned : List ℕ) (f : Face),
      f ∈ (innerScan seed threshold L assigned).1 → f ∈ L := by
  intro L
  induction L with
  | nil => intro assigned f hf; simp [innerScan] at hf
  | cons o rest ih =>
      intro assigned f hf
      by_cases h1 : o.id ∈ assigned
      · rw [innerScan, if_pos h1] at hf
        exact List.mem_cons_of_mem o (ih assigned f hf)
      · rw [innerScan, if_neg h1] at hf
        by_cases h2 : faceDistSq seed.descriptor o.descriptor <
            threshold * threshold
        · rw [if_pos h2] at hf
          rcases List.mem_cons.mp hf with hf | hf
          · exact hf ▸ List.mem_cons_self o rest
          · exact List.mem_cons_of_mem o (ih _ f hf)
        · rw [if_neg h2] at hf
          exact List.mem_cons_of_mem o (ih assigned f hf)

/-- No face picked by the inner scan was already assigned. -/
theorem innerScan_picked_fresh (seed : Face) (threshold : ℚ) :
    ∀ (L : List Face) (assigned : List ℕ) (f : Face),
      f ∈ (innerScan seed threshold L assigned).1 → f.id ∉ assigned := by
  intro L
  induction L with
  | nil => intro assigned f hf; simp [innerScan] at hf
  | cons o rest ih =>
      intro assigned f hf
      by_cases h1 : o.id ∈ assigned
      · rw [innerScan, if_pos h1] at hf
        exact ih assigned f hf
      · rw [innerScan, if_neg h1] at hf
        by_cases h2 : faceDistSq seed.descriptor o.descriptor <
            threshold * threshold
        · rw [if_pos h2] at hf
          rcases List.mem_cons.mp hf with hf | hf
          · exact hf ▸ h1
          · have := ih (o.id :: assigned) f hf
            intro hmem
            exact this (List.mem_cons_of_mem o.id hmem)
        · rw [if_neg h2] at hf
          exact ih assigned f hf

/-- The ids of the faces picked by one inner scan are pairwise distinct. -/
theorem innerScan_picked_nodup (seed : Face) (threshold : ℚ) :
    ∀ (L : List Face) (assigned : List ℕ),
      ((innerScan seed threshold L assigned).1.map (fun f => f.id)).Nodup := by
  intro L
  induction L with
  | nil => intro assigned; simp [innerScan]
  | cons o rest ih =>
      intro assigned
      by_cases h1 : o.id ∈ assigned
      · rw [innerScan, if_pos h1]
        exact ih assigned
      · rw [innerScan, if_neg h1]
        by_cases h2 : faceDistSq seed.descriptor o.descriptor <
            threshold * threshold
        · rw [if_pos h2]
          simp only [List.map_cons, List.nodup_cons]
          refine ⟨?_, ih (o.id :: assigned)⟩
          intro hmem
          rcases List.mem_map.mp hmem with ⟨f, hf, hid⟩
          have := innerScan_picked_fresh seed threshold rest (o.id :: assigned)
            f hf
          exact this (hid ▸ List.mem_cons_self o.id assigned)
        · rw [if_neg h2]
          exact ih assigned

/-- Coverage: every face of the remaining worklist is either already
assigned or ends up in some output cluster's member list. -/
theorem outerLoop_cover (allFaces : List Face) (threshold : ℚ) :
    ∀ (rest : List Face) (assigned : List ℕ) (n : ℕ),
      ∀ f ∈ rest, f.id ∈ assigned ∨
        f.id ∈ idsOf (outerLoop allFaces threshold rest assigned n) := by
  intro rest
  induction rest with
  | nil => intro assigned n f hf; simp at hf
  | cons face tail ih =>
      intro assigned n f hf
      by_cases hmem : face.id ∈ assigned
      · rw [outerLoop, if_pos hmem]
        rcases List.mem_cons.mp hf with hf | hf
        · exact Or.inl (hf ▸ hmem)
        · exact ih assigned n f hf
      · rw [outerLoop, if_neg hmem]
        rw [idsOf_cons]
        rcases List.mem_cons.mp hf with hf | hf
        · subst hf
          refine Or.inr (List.mem_append_left _ ?_)
          simp [mkPerson]
        · rcases ih (innerScan face threshold allFaces (face.id :: assigned)).2
              (n + 1) f hf with h | h
          · rw [innerScan_assigned_mem face threshold allFaces
                (face.id :: assigned) f.id] at h
            rcases h with h | h
            · refine Or.inr (List.mem_append_left _ ?_)
              simp only [mkPerson, List.map_cons, List.mem_cons]
              exact Or.inr h
            · rcases List.mem_cons.mp h with h | h
              · refine Or.inr (List.mem_append_left _ ?_)
                simp only [mkPerson, List.map_cons, List.mem_cons]
                exact Or.inl h
              · exact Or.inl h
          · exact Or.inr (List.mem_append_right _ h)

/-- The member ids of the produced clusters are pairwise distinct overall
and avoid everything already assigned. -/
theorem outerLoop_ids_nodup_fresh (allFaces : List Face) (threshold : ℚ) :
    ∀ (rest : List Face) (assigned : List ℕ) (n : ℕ),
      (idsOf (outerLoop allFaces threshold rest assigned n)).Nodup ∧
        ∀ z ∈ idsOf (outerLoop allFaces threshold rest assigned n),
          z ∉ assigned := by
  intro rest
  induction rest with
  | nil => intro assigned n; constructor <;> simp [outerLoop, idsOf]
  | cons face tail ih =>
      intro assigned n
      by_cases hmem : face.id ∈ assigned
      · rw [outerLoop, if_pos hmem]
        exact ih assigned n
      · rw [outerLoop, if_neg hmem]
        rw [idsOf_cons]
        have hscan := innerScan_assigned_mem face threshold allFaces
          (face.id :: assigned)
        obtain ⟨ihnd, ihfresh⟩ :=
          ih (innerScan face threshold allFaces (face.id :: assigned)).2 (n + 1)
        have hperson : (mkPerson n face
            (innerScan face threshold allFaces (face.id :: assigned)).1).faceIds =
            face.id :: (innerScan face threshold allFaces
              (face.id :: assigned)).1.map (fun f => f.id) := by
          simp [mkPerson]
        constructor
        · rw [List.nodup_append]
          refine ⟨?_, ihnd, ?_⟩
          · rw [hperson, List.nodup_cons]
            refine ⟨?_, innerScan_picked_nodup face threshold allFaces _⟩
            intro hc
            rcases List.mem_map.mp hc with ⟨f, hf, hid⟩
            exact innerScan_picked_fresh face threshold allFaces _ f hf
              (hid ▸ List.mem_cons_self face.id assigned)
          · intro z hz hz2
            have hnot := ihfresh z hz2
            rw [hperson, List.mem_cons] at hz
            rcases hz with hz | hz
            · exact hnot ((hscan z).mpr (Or.inr (hz ▸
                List.mem_cons_self face.id assigned)))
            · exact hnot ((hscan z).mpr (Or.inl hz))
        · intro z hz
          rcases List.mem_append.mp hz with hz | hz
          · rw [hperson, List.mem_cons] at hz
            rcases hz with hz | hz
            · exact hz ▸ hmem
            · rcases List.mem_map.mp hz with ⟨f, hf, hid⟩
              intro hc
              exact innerScan_picked_fresh face threshold allFaces _ f hf
                (hid ▸ List.mem_cons_of_mem face.id hc)
          · intro hc
            exact ihfresh z hz ((hscan z).mpr (Or.inr
              (List.mem_cons_of_mem face.id hc)))

/-- Every member id of a produced cluster is the id of some input face. -/
theorem outerLoop_ids_from (allFaces : List Face) (threshold : ℚ) :
    ∀ (rest : List Face) (assigned : List ℕ) (n : ℕ),
      (∀ f ∈ rest, f ∈ allFaces) →
      ∀ z ∈ idsOf (outerLoop allFaces threshold rest assigned n),
        ∃ f ∈ allFaces, f.id = z := by
  intro rest
  induction rest with
  | nil => intro assigned n _ z hz; simp [outerLoop, idsOf] at hz
  | cons face tail ih =>
      intro assigned n hsub z hz
      by_cases hmem : face.id ∈ assigned
      · rw [outerLoop, if_pos hmem] at hz
        exact ih assigned n (fun f hf => hsub f (List.mem_cons_of_mem face hf))
          z hz
      · rw [outerLoop, if_neg hmem, idsOf_cons] at hz
        rcases List.mem_append.mp hz with hz | hz
        · simp only [mkPerson, List.map_cons, List.mem_cons] at hz
          rcases hz with hz | hz
          · exact ⟨face, hsub face (List.mem_cons_self face tail), hz.symm⟩
          · rcases List.mem_map.mp hz with ⟨f, hf, hid⟩
            exact ⟨f, innerScan_picked_sub face threshold allFaces _ f hf, hid⟩
        · exact ih _ (n + 1)
            (fun f hf => hsub f (List.mem_cons_of_mem face hf)) z hz

/-- In a cluster list whose concatenated member ids are duplicate-free, an
id occurring at all occurs in exactly one cluster's member list. -/
theorem countP_mem_faceIds_eq_one (z : ℕ) :
    ∀ (ps : List Person), (idsOf ps).Nodup → z ∈ idsOf ps →
      ps.countP (fun p => decide (z ∈ p.faceIds)) = 1 := by
  intro ps
  induction ps with
  | nil => intro _ hz; simp [idsOf] at hz
  | cons p tail ih =>
      intro hnd hz
      rw [idsOf_cons] at hz hnd
      rw [List.nodup_append] at hnd
      obtain ⟨hnd1, hnd2, hdisj⟩ := hnd
      rw [List.countP_cons]
      by_cases hp : z ∈ p.faceIds
      · have htail : tail.countP (fun p => decide (z ∈ p.faceIds)) = 0 := by
          rw [List.countP_eq_zero]
          intro q hq
          simp only [decide_eq_true_eq]
          intro hzq
          exact hdisj hp (mem_idsOf.mpr ⟨q, hq, hzq⟩)
        simp [htail, hp]
      · have hz2 : z ∈ idsOf tail := by
          rcases List.mem_append.mp hz with h | h
          · exact absurd h hp
          · exact h
        rw [if_neg (by simp [hp] : ¬ decide (z ∈ p.faceIds) = true),
          Nat.add_zero]
        exact ih hnd2 hz2

/-- C9: for an input list of faces with pairwise-distinct ids, the clusters
returned by `clusterFacesByPerson` partition the input: the concatenated
member-id lists are a permutation of the input id list (so every input id
appears and none is invented or duplicated), every input face's id lies in
exactly one cluster's member list, every cluster is nonempty, the cluster
sizes sum to the input length, and the empty input yields no clusters. -/
theorem clusterFacesByPerson_partition (faces : List Face) (threshold : ℚ)
    (hnd : (faces.map (fun f => f.id)).Nodup) :
    (idsOf (clusterFacesByPerson faces threshold)).Perm
        (faces.map (fun f => f.id)) ∧
    (∀ f ∈ faces,
      (clusterFacesByPerson faces threshold).countP
        (fun p => decide (f.id ∈ p.faceIds)) = 1) ∧
    (∀ z ∈ idsOf (clusterFacesByPerson faces threshold),
      z ∈ faces.map (fun f => f.id)) ∧
    (∀ p ∈ clusterFacesByPerson faces threshold, p.faceIds ≠ []) ∧
    ((clusterFacesByPerson faces threshold).map
        (fun p => p.faceIds.length)).sum = faces.length ∧
    clusterFacesByPerson [] threshold = [] := by
  have hnodup := (outerLoop_ids_nodup_fresh faces threshold faces [] 0).1
  have hfrom : ∀ z ∈ idsOf (clusterFacesByPerson faces threshold),
      z ∈ faces.map (fun f => f.id) := by
    intro z hz
    obtain ⟨f, hf, hid⟩ := outerLoop_ids_from faces threshold faces [] 0
      (fun f hf => hf) z hz
    exact List.mem_map.mpr ⟨f, hf, hid⟩
  have hcover : ∀ z ∈ faces.map (fun f => f.id),
      z ∈ idsOf (clusterFacesByPerson faces threshold) := by
    intro z hz
    rcases List.mem_map.mp hz with ⟨f, hf, hid⟩
    rcases outerLoop_cover faces threshold faces [] 0 f hf with h | h
    · simp at h
    · exact hid ▸ h
  have hperm : (idsOf (clusterFacesByPerson faces threshold)).Perm
      (faces.map (fun f => f.id)) :=
    (List.subperm_of_subset hnodup hfrom).antisymm
      (List.subperm_of_subset hnd hcover)
  refine ⟨hperm, ?_, hfrom, ?_, ?_, rfl⟩
  · intro f hf
    refine countP_mem_faceIds_eq_one f.id _ hnodup ?_
    exact hcover f.id (List.mem_map.mpr ⟨f, hf, rfl⟩)
  · intro p hp
    obtain ⟨m, seed, others, rfl⟩ :=
      outerLoop_shape faces threshold faces [] 0 p hp
    simp [mkPerson]
  · have hlen : (idsOf (clusterFacesByPerson faces threshold)).length =
        faces.length := by
      rw [hperm.length_eq, List.length_map]
    rw [← hlen, idsOf, List.length_flatten, List.map_map]
    rfl

/-- Witness for `clusterFacesByPerson_partition` at a concrete input: the
two demo faces (distinct ids 1 and 2) cluster into a partition whose member
ids are a permutation of the input ids and whose sizes sum to 2. -/
theorem clusterFacesByPerson_partition_witness :
    (idsOf (clusterFacesByPerson [demoChildFace, demoAdultFace] (3/5))).Perm
        ([demoChildFace, demoAdultFace].map (fun f => f.id)) ∧
    ((clusterFacesByPerson [demoChildFace, demoAdultFace] (3/5)).map
        (fun p => p.faceIds.length)).sum = 2 := by
  have h := clusterFacesByPerson_partition [demoChildFace, demoAdultFace]
    (3/5) (by decide)
  exact ⟨h.1, h.2.2.2.2.1⟩

/-- An image entry of the working set, as assembled by `handleFilesSelected`
(`{id, file, img, faces, manualRegions, processed}`).  The decoded `img`
element carries no logic beyond its dimensions and is represented by the
file token; `processed` (the cached processed-output canvas) is an optional
opaque token. -/
structure ImageEntry where
  id : ℕ
  fileName : ℕ
  faces : List Face
  manualRegions : List ManualRegion
  processed : Option ℕ
  deriving DecidableEq, Repr

/-- `togglePersonSelection(personId)`: look the person up in the derived
cluster list, flip its selection value, and map over all images, setting
every member face's `selected` to the flipped value and resetting the
cached `processed` output.  The JS `Set` of ids to toggle is modelled by
list membership in `person.faceIds`. -/
def togglePersonSelection (persons : List Person) (personId : ℕ)
    (images : List ImageEntry) : List ImageEntry :=
  match persons.find? (fun p => p.id == personId) with
  | none => images
  | some person =>
      images.map fun img =>
        { img with
          processed := none
          faces := img.faces.map fun face =>
            if face.id ∈ person.faceIds then
              { face with selected := !person.selected }
            else face }

theorem forall₂_map_self {α : Type} (g : α → α) (R : α → α → Prop)
    (h : ∀ a, R a (g a)) : ∀ l : List α, List.Forall₂ R l (l.map g) := by
  intro l
  induction l with
  | nil => exact List.Forall₂.nil
  | cons a tl ih => exact List.Forall₂.cons (h a) ih

/-- C8: toggling a person cluster's selection rewrites exactly the member
faces.  When the person with the given id is found, every image entry is
rewritten so that a face whose id is in the cluster's member list gets
`selected = !person.selected` (with no other field changed) while every
other face is returned untouched; image ids and manual regions are
untouched and the cached processed output is invalidated. -/
theorem togglePersonSelection_members_only (persons : List Person)
    (personId : ℕ) (person : Person) (images : List ImageEntry)
    (hfind : persons.find? (fun p => p.id == personId) = some person) :
    List.Forall₂
      (fun img img2 =>
        img2.id = img.id ∧ img2.manualRegions = img.manualRegions ∧
          img2.processed = none ∧
          List.Forall₂
            (fun f f2 =>
              (f.id ∈ person.faceIds →
                f2 = { f with selected := !person.selected }) ∧
              (f.id ∉ person.faceIds → f2 = f))
            img.faces img2.faces)
      images (togglePersonSelection persons personId images) := by
  rw [togglePersonSelection, hfind]
  refine forall₂_map_self _ _ ?_ images
  intro img
  refine ⟨rfl, rfl, rfl, ?_⟩
  refine forall₂_map_self _ _ ?_ img.faces
  intro face
  constructor
  · intro hmem
    rw [if_pos hmem]
  · intro hmem
    rw [if_neg hmem]

/-- An image entry used by concrete witnesses: both demo faces on one image. -/
def demoImageEntry : ImageEntry :=
  { id := 0, fileName := 0, faces := [demoChildFace, demoAdultFace],
    manualRegions := [], processed := some 0 }

/-- Witness for `togglePersonSelection_members_only` at a concrete input:
toggling the demo cluster (id 0, selected) over the demo image. -/
theorem togglePersonSelection_witness :
    List.Forall₂
      (fun img img2 =>
        img2.id = img.id ∧ img2.manualRegions = img.manualRegions ∧
          img2.processed = none ∧
          List.Forall₂
            (fun f f2 =>
              (f.id ∈ (mkPerson 0 demoChildFace [demoAdultFace]).faceIds →
                f2 = { f with
                  selected := !(mkPerson 0 demoChildFace [demoAdultFace]).selected }) ∧
              (f.id ∉ (mkPerson 0 demoChildFace [demoAdultFace]).faceIds →
                f2 = f))
            img.faces img2.faces)
      [demoImageEntry]
      (togglePersonSelection [mkPerson 0 demoChildFace [demoAdultFace]] 0
        [demoImageEntry]) :=
  togglePersonSelection_members_only
    [mkPerson 0 demoChildFace [demoAdultFace]] 0
    (mkPerson 0 demoChildFace [demoAdultFace]) [demoImageEntry] rfl

/-- An input file of the batch handler; the `File` object is opaque beyond
its name token. -/
structure FileRec where
  name : ℕ
  deriving DecidableEq, Repr

/-- The outcome of the `try` block body for one file in
`handleFilesSelected`: either the image loads and `detectFaces` returns raw
faces together with the recorded downscale factor, or some step throws
(image decode failure or detection failure — both land in the same
`catch`). -/
inductive DetectOutcome where
  | success (scale : ℚ) (rawFaces : List Face)
  | failure
  deriving DecidableEq, Repr

def DetectOutcome.isSuccess : DetectOutcome → Bool
  | .success _ _ => true
  | .failure => false

/-- The per-face enrichment inside `handleFilesSelected`: attach the image
id and scale the detection-frame box back to natural coordinates by
dividing each component by the recorded scale factor.  The thumbnail is
re-extracted from the full-resolution canvas; that canvas crop is an
external drawing primitive, modelled by keeping the face's thumbnail
token. -/
def scaleFace (imageId : ℕ) (scale : ℚ) (face : Face) : Face :=
  { face with
    imageId := imageId
    box :=
      { x := face.box.x / scale, y := face.box.y / scale,
        width := face.box.width / scale, height := face.box.height / scale } }

/-- The image entry pushed for a successfully processed file
(`{id, file, img, faces, manualRegions: [], processed: null}`; the
`img-${Date.now()}-${i}` id is modelled as the loop index `i`). -/
def mkImageEntry (i : ℕ) (file : FileRec) (scale : ℚ)
    (rawFaces : List Face) : ImageEntry :=
  { id := i, fileName := file.name,
    faces := rawFaces.map (scaleFace i scale),
    manualRegions := [], processed := none }

/-- The `for` loop of `handleFilesSelected` over the file batch, with the
loop index explicit: a success pushes an entry, a failure only logs
(`console.error`) and moves on to the next file. -/
def processFilesFrom : ℕ → List (FileRec × DetectOutcome) → List ImageEntry
  | _, [] => []
  | i, (_, DetectOutcome.failure) :: restFiles =>
      processFilesFrom (i + 1) restFiles
  | i, (file, DetectOutcome.success scale raw) :: restFiles =>
      mkImageEntry i file scale raw :: processFilesFrom (i + 1) restFiles

/-- `handleFilesSelected`: run the batch loop and append the new entries to
the existing working set (`setImages(prev => [...prev, ...newImages])`). -/
def handleFilesSelected (files : List (FileRec × DetectOutcome))
    (startImages : List ImageEntry) : List ImageEntry :=
  startImages ++ processFilesFrom 0 files

theorem processFilesFrom_length (files : List (FileRec × DetectOutcome)) :
    ∀ i : ℕ, (processFilesFrom i files).length =
      files.countP (fun fo => fo.2.isSuccess) := by
  induction files with
  | nil => intro i; rfl
  | cons fo restFiles ih =>
      intro i
      obtain ⟨file, outcome⟩ := fo
      cases outcome with
      | failure =>
          rw [processFilesFrom, List.countP_cons]
          simp [DetectOutcome.isSuccess, ih (i + 1)]
      | success scale raw =>
          rw [processFilesFrom, List.countP_cons]
          simp [DetectOutcome.isSuccess, ih (i + 1)]

theorem processFilesFrom_id_lb (files : List (FileRec × DetectOutcome)) :
    ∀ (i : ℕ) (e : ImageEntry), e ∈ processFilesFrom i files → i ≤ e.id := by
  induction files with
  | nil => intro i e he; simp [processFilesFrom] at he
  | cons fo restFiles ih =>
      intro i e he
      obtain ⟨file, outcome⟩ := fo
      cases outcome with
      | failure =>
          rw [processFilesFrom] at he
          exact Nat.le_of_succ_le (ih (i + 1) e he)
      | success scale raw =>
          rw [processFilesFrom] at he
          rcases List.mem_cons.mp he with he | he
          · rw [he]
            exact Nat.le_refl _
          · exact Nat.le_of_succ_le (ih (i + 1) e he)

theorem processFilesFrom_success_mem (files : List (FileRec × DetectOutcome)) :
    ∀ (i j : ℕ) (hj : j < files.length) (scale : ℚ) (raw : List Face),
      (files.get ⟨j, hj⟩).2 = DetectOutcome.success scale raw →
      mkImageEntry (i + j) (files.get ⟨j, hj⟩).1 scale raw ∈
        processFilesFrom i files := by
  induction files with
  | nil => intro i j hj; simp at hj
  | cons fo restFiles ih =>
      intro i j hj scale raw hget
      obtain ⟨file, outcome⟩ := fo
      match j with
      | 0 =>
          simp only [List.get] at hget ⊢
          subst hget
          rw [processFilesFrom]
          exact List.mem_cons_self _ _
      | Nat.succ k =>
          simp only [List.get] at hget ⊢
          have hk : k < restFiles.length := Nat.lt_of_succ_lt_succ hj
          have := ih (i + 1) k hk scale raw hget
          have harith : i + 1 + k = i + (k + 1) := by omega
          rw [harith] at this
          cases outcome with
          | failure => rw [processFilesFrom]; exact this
          | success s r =>
              rw [processFilesFrom]
              exact List.mem_cons_of_mem _ this

theorem processFilesFrom_failure_absent
    (files : List (FileRec × DetectOutcome)) :
    ∀ (i j : ℕ) (hj : j < files.length),
      (files.get ⟨j, hj⟩).2 = DetectOutcome.failure →
      ∀ e ∈ processFilesFrom i files, e.id ≠ i + j := by
  induction files with
  | nil => intro i j hj; simp at hj
  | cons fo restFiles ih =>
      intro i j hj hget e he
      obtain ⟨file, outcome⟩ := fo
      match j with
      | 0 =>
          simp only [List.get] at hget
          subst hget
          rw [processFilesFrom] at he
          have := processFilesFrom_id_lb restFiles (i + 1) e he
          omega
      | Nat.succ k =>
          simp only [List.get] at hget
          have hk : k < restFiles.length := Nat.lt_of_succ_lt_succ hj
          cases outcome with
          | failure =>
              rw [processFilesFrom] at he
              have := ih (i + 1) k hk hget e he
              omega
          | success s r =>
              rw [processFilesFrom] at he
              rcases List.mem_cons.mp he with he | he
              · rw [he]
                simp [mkImageEntry]
              · have := ih (i + 1) k hk hget e he
                omega

/-- C1 (amended): a per-image detection (or decode) failure does not abort
the batch — every *successful* file still yields its image entry, in order
and with its faces scaled back to natural coordinates — but, contrary to
the claim, the failed file is *not* added to the working set at all: the
number of new entries equals the number of successful files, and no entry
carries a failed file's index.  (`catch` only logs the error; the push into
`newImages` is inside the `try`, so nothing is pushed for a failed file —
see the counterexample.) -/
theorem handleFilesSelected_keeps_only_successes
    (files : List (FileRec × DetectOutcome)) (startImages : List ImageEntry) :
    (handleFilesSelected files startImages).length =
      startImages.length + files.countP (fun fo => fo.2.isSuccess) ∧
    (∀ (j : ℕ) (hj : j < files.length) (scale : ℚ) (raw : List Face),
      (files.get ⟨j, hj⟩).2 = DetectOutcome.success scale raw →
      mkImageEntry j (files.get ⟨j, hj⟩).1 scale raw ∈
        handleFilesSelected files startImages) ∧
    (∀ (j : ℕ) (hj : j < files.length),
      (files.get ⟨j, hj⟩).2 = DetectOutcome.failure →
      ∀ e ∈ processFilesFrom 0 files, e.id ≠ j) := by
  refine ⟨?_, ?_, ?_⟩
  · rw [handleFilesSelected, List.length_append,
      processFilesFrom_length files 0]
  · intro j hj scale raw hget
    have := processFilesFrom_success_mem files 0 j hj scale raw hget
    rw [Nat.zero_add] at this
    exact List.mem_append_right _ this
  · intro j hj hget e he
    have := processFilesFrom_failure_absent files 0 j hj hget e he
    omega

/-- Witness for `handleFilesSelected_keeps_only_successes`: a two-file batch
whose first file fails detection and whose second succeeds yields exactly
one entry — the second file's — showing the batch continued past the
failure. -/
theorem handleFilesSelected_witness :
    (handleFilesSelected
        [({ name := 5 }, DetectOutcome.failure),
         ({ name := 7 }, DetectOutcome.success 1 [])] []).length = 1 ∧
    mkImageEntry 1 { name := 7 } 1 [] ∈
      handleFilesSelected
        [({ name := 5 }, DetectOutcome.failure),
         ({ name := 7 }, DetectOutcome.success 1 [])] [] := by
  have h := handleFilesSelected_keeps_only_successes
    [({ name := 5 }, DetectOutcome.failure),
     ({ name := 7 }, DetectOutcome.success 1 [])] []
  constructor
  · rw [h.1]; rfl
  · exact h.2.1 1 (by norm_num) 1 [] rfl

/-- C1 counterexample: submitting a single file whose detection fails leaves
the working set empty — no image entry with an empty face list is created —
so "one image entry exists per submitted file regardless of per-image
detection failures" is false on the code. -/
theorem handleFilesSelected_drops_failed_file :
    (handleFilesSelected [({ name := 0 }, DetectOutcome.failure)] []).length
      ≠ 1 := by
  decide

/-- An RGBA pixel of canvas `ImageData` (one byte per channel). -/
@[ext]
structure Pixel where
  r : ℕ
  g : ℕ
  b : ℕ
  a : ℕ
  deriving DecidableEq, Repr

/-- A canvas, modelled as pixel values over integer coordinates.  The flat
`Uint8ClampedArray` index `((y * width + x) * 4 + channel)` is in bijection
with `(x, y, channel)` for `x < width`, and every access in the source
satisfies that bound thanks to the loop guards, so the data is modelled by
coordinates directly. -/
def Img : Type := ℤ → ℤ → Pixel

/-- `const PIXEL_SIZE = 24` from `blur-utils`. -/
def PIXEL_SIZE : ℕ := 24

/-- `Math.round(s / c)` for naturals (used on non-negative channel sums):
floor of `s/c + 1/2`. -/
def natRoundDiv (s c : ℕ) : ℕ := (2 * s + c) / (2 * c)

/-- Sum of a channel over the block with origin `(px, py)` and extent
`bw × bh` — the accumulation loop `r += data[i]` of `applyPixelation`. -/
def blockSum (f : ℕ → ℕ → ℕ) (px py bw bh : ℕ) : ℕ :=
  ((List.range bh).map
    (fun dy => ((List.range bw).map (fun dx => f (px + dx) (py + dy))).sum)).sum

/-- Membership of point `(X, Y)` in the pixelation block with origin
`(px, py)`: the loop guards `dx < PIXEL_SIZE && px + dx < width` give the
block the extent `min PIXEL_SIZE (width - px)` (and the same vertically). -/
def inBlock (W H py px X Y : ℕ) : Prop :=
  px ≤ X ∧ X < px + min PIXEL_SIZE (W - px) ∧
  py ≤ Y ∧ Y < py + min PIXEL_SIZE (H - py)

instance (W H py px X Y : ℕ) : Decidable (inBlock W H py px X Y) := by
  unfold inBlock; infer_instance

/-- One block iteration of `applyPixelation`: average each colour channel
over the block (partial blocks use only the pixels present) and overwrite
the block with the rounded means; the alpha channel is not written. -/
def blockStep (W H py px : ℕ) (d : ℕ → ℕ → Pixel) : ℕ → ℕ → Pixel :=
  let bw := min PIXEL_SIZE (W - px)
  let bh := min PIXEL_SIZE (H - py)
  let rAvg := natRoundDiv (blockSum (fun A B => (d A B).r) px py bw bh) (bw * bh)
  let gAvg := natRoundDiv (blockSum (fun A B => (d A B).g) px py bw bh) (bw * bh)
  let bAvg := natRoundDiv (blockSum (fun A B => (d A B).b) px py bw bh) (bw * bh)
  fun X Y =>
    if px ≤ X ∧ X < px + bw ∧ py ≤ Y ∧ Y < py + bh then
      { r := rAvg, g := gAvg, b := bAvg, a := (d X Y).a }
    else d X Y

/-- The block value: rounded per-channel means over the block containing the
point, alpha taken from the point itself. -/
def blockMeanPixel (W H py px : ℕ) (d : ℕ → ℕ → Pixel) (X Y : ℕ) : Pixel :=
  let bw := min PIXEL_SIZE (W - px)
  let bh := min PIXEL_SIZE (H - py)
  { r := natRoundDiv (blockSum (fun A B => (d A B).r) px py bw bh) (bw * bh)
    g := natRoundDiv (blockSum (fun A B => (d A B).g) px py bw bh) (bw * bh)
    b := natRoundDiv (blockSum (fun A B => (d A B).b) px py bw bh) (bw * bh)
    a := (d X Y).a }

/-- The block origins `(py, px)` visited by the nested
`for (py += PIXEL_SIZE) for (px += PIXEL_SIZE)` loops, in loop order. -/
def blockOrigins (W H : ℕ) : List (ℕ × ℕ) :=
  (List.range ((H + PIXEL_SIZE - 1) / PIXEL_SIZE)).flatMap
    (fun bj => (List.range ((W + PIXEL_SIZE - 1) / PIXEL_SIZE)).map
      (fun bi => (PIXEL_SIZE * bj, PIXEL_SIZE * bi)))

/-- The whole pixelation pass over a `W × H` pixel buffer. -/
def pixelate (W H : ℕ) (d : ℕ → ℕ → Pixel) : ℕ → ℕ → Pixel :=
  (blockOrigins W H).foldl (fun acc o => blockStep W H o.1 o.2 acc) d

/-- Rounded box width `Math.round(box.width)` as the buffer extent. -/
def boxW (box : QBox) : ℕ := (jsRound box.width).toNat

/-- Rounded box height `Math.round(box.height)` as the buffer extent. -/
def boxH (box : QBox) : ℕ := (jsRound box.height).toNat

/-- The sub-buffer copied by `ctx.getImageData(x, y, width, height)`:
buffer coordinate `(X, Y)` reads canvas pixel `(x + X, y + Y)`. -/
def pixSub (box : QBox) (img : Img) : ℕ → ℕ → Pixel :=
  fun X Y => img (jsRound box.x + X) (jsRound box.y + Y)

/-- Membership in the integer rectangle written back by
`ctx.putImageData(imageData, x, y)` — the rounded region box. -/
def inPixRect (box : QBox) (i j : ℤ) : Prop :=
  jsRound box.x ≤ i ∧ i < jsRound box.x + (boxW box : ℤ) ∧
  jsRound box.y ≤ j ∧ j < jsRound box.y + (boxH box : ℤ)

instance (box : QBox) (i j : ℤ) : Decidable (inPixRect box i j) := by
  unfold inPixRect; infer_instance

/-- `applyPixelation(ctx, box)` from `blur-utils`: round the box, copy the
covered rect out of the canvas, average 24×24 blocks in place, and write the
rect back.  Pixels outside the rect are untouched. -/
def applyPixelation (box : QBox) (img : Img) : Img :=
  fun i j =>
    if inPixRect box i j then
      pixelate (boxW box) (boxH box) (pixSub box img)
        (i - jsRound box.x).toNat (j - jsRound box.y).toNat
    else img i j

theorem blockStep_eval_outside (W H py px : ℕ) (d : ℕ → ℕ → Pixel) (X Y : ℕ)
    (h : ¬ inBlock W H py px X Y) :
    blockStep W H py px d X Y = d X Y := by
  simp only [inBlock] at h
  simp only [blockStep]
  rw [if_neg h]

theorem blockStep_eval_inside (W H py px : ℕ) (d : ℕ → ℕ → Pixel) (X Y : ℕ)
    (h : inBlock W H py px X Y) :
    blockStep W H py px d X Y = blockMeanPixel W H py px d X Y := by
  simp only [inBlock] at h
  simp only [blockStep, blockMeanPixel]
  rw [if_pos h]

theorem blockSum_congr (f f2 : ℕ → ℕ → ℕ) (px py bw bh : ℕ)
    (h : ∀ A B, px ≤ A → A < px + bw → py ≤ B → B < py + bh →
      f A B = f2 A B) :
    blockSum f px py bw bh = blockSum f2 px py bw bh := by
  unfold blockSum
  refine congrArg List.sum ?_
  refine List.map_congr_left ?_
  intro dy hdy
  rw [List.mem_range] at hdy
  refine congrArg List.sum ?_
  refine List.map_congr_left ?_
  intro dx hdx
  rw [List.mem_range] at hdx
  exact h (px + dx) (py + dy) (Nat.le_add_right _ _) (by omega)
    (Nat.le_add_right _ _) (by omega)

theorem blockMeanPixel_congr (W H py px : ℕ) (d d2 : ℕ → ℕ → Pixel)
    (X Y : ℕ) (hin : inBlock W H py px X Y)
    (hagree : ∀ A B, inBlock W H py px A B → d A B = d2 A B) :
    blockMeanPixel W H py px d X Y = blockMeanPixel W H py px d2 X Y := by
  have hsum : ∀ f : Pixel → ℕ,
      blockSum (fun A B => f (d A B)) px py (min PIXEL_SIZE (W - px))
          (min PIXEL_SIZE (H - py)) =
        blockSum (fun A B => f (d2 A B)) px py (min PIXEL_SIZE (W - px))
          (min PIXEL_SIZE (H - py)) := by
    intro f
    refine blockSum_congr _ _ _ _ _ _ ?_
    intro A B h1 h2 h3 h4
    rw [hagree A B ⟨h1, h2, h3, h4⟩]
  simp only [blockMeanPixel]
  rw [hsum (fun p => p.r), hsum (fun p => p.g), hsum (fun p => p.b),
    hagree X Y hin]

theorem mem_blockOrigins (W H : ℕ) (o : ℕ × ℕ) :
    o ∈ blockOrigins W H ↔
      ∃ bj bi, o = (PIXEL_SIZE * bj, PIXEL_SIZE * bi) ∧
        PIXEL_SIZE * bj < H ∧ PIXEL_SIZE * bi < W := by
  simp only [blockOrigins, List.mem_flatMap, List.mem_map, List.mem_range,
    PIXEL_SIZE]
  constructor
  · rintro ⟨bj, hbj, bi, hbi, rfl⟩
    exact ⟨bj, bi, rfl, by omega, by omega⟩
  · rintro ⟨bj, bi, rfl, h1, h2⟩
    exact ⟨bj, by omega, bi, ⟨by omega, rfl⟩⟩

theorem blockOrigins_nodup (W H : ℕ) : (blockOrigins W H).Nodup := by
  rw [blockOrigins, List.nodup_flatMap]
  constructor
  · intro bj _
    refine List.Nodup.map ?_ (List.nodup_range _)
    intro a b hab
    simp only [Prod.mk.injEq, PIXEL_SIZE] at hab
    omega
  · refine (List.pairwise_lt_range _).imp ?_
    intro a b hab o ho1 ho2
    simp only [Function.onFun, List.mem_map, List.mem_range] at ho1 ho2
    obtain ⟨bi1, _, h1⟩ := ho1
    obtain ⟨bi2, _, h2⟩ := ho2
    rw [← h1] at h2
    simp only [Prod.mk.injEq, PIXEL_SIZE] at h2
    omega

theorem inBlock_valid_iff (W H bj bi X Y : ℕ) (hX : X < W) (hY : Y < H) :
    inBlock W H (PIXEL_SIZE * bj) (PIXEL_SIZE * bi) X Y ↔
      PIXEL_SIZE * bi = PIXEL_SIZE * (X / PIXEL_SIZE) ∧
        PIXEL_SIZE * bj = PIXEL_SIZE * (Y / PIXEL_SIZE) := by
  simp only [inBlock, PIXEL_SIZE]
  omega

theorem inBlock_self (W H X Y : ℕ) (hX : X < W) (hY : Y < H) :
    inBlock W H (PIXEL_SIZE * (Y / PIXEL_SIZE))
      (PIXEL_SIZE * (X / PIXEL_SIZE)) X Y := by
  simp only [inBlock, PIXEL_SIZE]
  omega

theorem foldl_blockStep_untouched (W H X Y : ℕ) :
    ∀ (L : List (ℕ × ℕ)) (d : ℕ → ℕ → Pixel),
      (∀ o ∈ L, ¬ inBlock W H o.1 o.2 X Y) →
      (L.foldl (fun acc o => blockStep W H o.1 o.2 acc) d) X Y = d X Y := by
  intro L
  induction L with
  | nil => intro d _; rfl
  | cons o rest ih =>
      intro d h
      rw [List.foldl_cons,
        ih _ (fun o2 ho2 => h o2 (List.mem_cons_of_mem o ho2))]
      exact blockStep_eval_outside W H o.1 o.2 d X Y
        (h o (List.mem_cons_self o rest))

theorem foldl_blockStep_eval (W H X Y : ℕ) (hX : X < W) (hY : Y < H)
    (d0 : ℕ → ℕ → Pixel) :
    ∀ (L : List (ℕ × ℕ)) (d : ℕ → ℕ → Pixel),
      (PIXEL_SIZE * (Y / PIXEL_SIZE), PIXEL_SIZE * (X / PIXEL_SIZE)) ∈ L →
      L.Nodup →
      (∀ o ∈ L, ∃ bj bi, o = (PIXEL_SIZE * bj, PIXEL_SIZE * bi) ∧
        PIXEL_SIZE * bj < H ∧ PIXEL_SIZE * bi < W) →
      (∀ A B, inBlock W H (PIXEL_SIZE * (Y / PIXEL_SIZE))
          (PIXEL_SIZE * (X / PIXEL_SIZE)) A B → d A B = d0 A B) →
      (L.foldl (fun acc o => blockStep W H o.1 o.2 acc) d) X Y =
        blockMeanPixel W H (PIXEL_SIZE * (Y / PIXEL_SIZE))
          (PIXEL_SIZE * (X / PIXEL_SIZE)) d0 X Y := by
  intro L
  induction L with
  | nil => intro d htarget; simp at htarget
  | cons o rest ih =>
      intro d htarget hnodup hvalid hagree
      rw [List.foldl_cons]
      by_cases ho :
          o = (PIXEL_SIZE * (Y / PIXEL_SIZE), PIXEL_SIZE * (X / PIXEL_SIZE))
      · have ho1 : o.1 = PIXEL_SIZE * (Y / PIXEL_SIZE) := by rw [ho]
        have ho2c : o.2 = PIXEL_SIZE * (X / PIXEL_SIZE) := by rw [ho]
        have hin : inBlock W H o.1 o.2 X Y := by
          rw [ho1, ho2c]; exact inBlock_self W H X Y hX hY
        have hrest : ∀ o2 ∈ rest, ¬ inBlock W H o2.1 o2.2 X Y := by
          intro o2 ho2 hc
          obtain ⟨bj, bi, rfl, hbj, hbi⟩ :=
            hvalid o2 (List.mem_cons_of_mem o ho2)
          rw [inBlock_valid_iff W H bj bi X Y hX hY] at hc
          have heq : ((PIXEL_SIZE * bj, PIXEL_SIZE * bi) : ℕ × ℕ) =
              (PIXEL_SIZE * (Y / PIXEL_SIZE),
                PIXEL_SIZE * (X / PIXEL_SIZE)) := by
            rw [hc.1, hc.2]
          rw [heq, ← ho] at ho2
          exact (List.nodup_cons.mp hnodup).1 ho2
        rw [foldl_blockStep_untouched W H X Y rest _ hrest,
          blockStep_eval_inside W H o.1 o.2 d X Y hin, ho1, ho2c]
        exact blockMeanPixel_congr W H _ _ d d0 X Y
          (inBlock_self W H X Y hX hY) hagree
      · have htarget2 :
            (PIXEL_SIZE * (Y / PIXEL_SIZE), PIXEL_SIZE * (X / PIXEL_SIZE)) ∈
              rest := by
          rcases List.mem_cons.mp htarget with h | h
          · exact absurd h.symm ho
          · exact h
        refine ih (blockStep W H o.1 o.2 d) htarget2
          (List.nodup_cons.mp hnodup).2
          (fun o2 ho2 => hvalid o2 (List.mem_cons_of_mem o ho2)) ?_
        intro A B hAB
        have hA : A < W := by
          simp only [inBlock, PIXEL_SIZE] at hAB; omega
        have hB : B < H := by
          simp only [inBlock, PIXEL_SIZE] at hAB; omega
        rw [blockStep_eval_outside W H o.1 o.2 d A B ?_]
        · exact hagree A B hAB
        · intro hc
          obtain ⟨bj, bi, ho2, hbj, hbi⟩ := hvalid o (List.mem_cons_self o rest)
          rw [ho2] at hc
          rw [inBlock_valid_iff W H bj bi A B hA hB] at hc
          have h2 := (inBlock_valid_iff W H (Y / PIXEL_SIZE) (X / PIXEL_SIZE)
            A B hA hB).mp hAB
          apply ho
          rw [ho2]
          have hcomp1 : PIXEL_SIZE * bj = PIXEL_SIZE * (Y / PIXEL_SIZE) := by
            rw [hc.2, ← h2.2]
          have hcomp2 : PIXEL_SIZE * bi = PIXEL_SIZE * (X / PIXEL_SIZE) := by
            rw [hc.1, ← h2.1]
          rw [hcomp1, hcomp2]

theorem pixelate_eval (W H : ℕ) (d : ℕ → ℕ → Pixel) (X Y : ℕ)
    (hX : X < W) (hY : Y < H) :
    pixelate W H d X Y =
      blockMeanPixel W H (PIXEL_SIZE * (Y / PIXEL_SIZE))
        (PIXEL_SIZE * (X / PIXEL_SIZE)) d X Y := by
  refine foldl_blockStep_eval W H X Y hX hY d (blockOrigins W H) d ?_
    (blockOrigins_nodup W H) ?_ (fun _ _ _ => rfl)
  · rw [mem_blockOrigins]
    refine ⟨Y / PIXEL_SIZE, X / PIXEL_SIZE, rfl, ?_, ?_⟩ <;>
      · simp only [PIXEL_SIZE]; omega
  · intro o ho
    exact (mem_blockOrigins W H o).mp ho

theorem applyPixelation_eval (box : QBox) (img : Img) (i j : ℤ)
    (hin : inPixRect box i j) :
    applyPixelation box img i j =
      blockMeanPixel (boxW box) (boxH box)
        (PIXEL_SIZE * ((j - jsRound box.y).toNat / PIXEL_SIZE))
        (PIXEL_SIZE * ((i - jsRound box.x).toNat / PIXEL_SIZE))
        (pixSub box img)
        (i - jsRound box.x).toNat (j - jsRound box.y).toNat := by
  have hX : (i - jsRound box.x).toNat < boxW box := by
    simp only [inPixRect] at hin; omega
  have hY : (j - jsRound box.y).toNat < boxH box := by
    simp only [inPixRect] at hin; omega
  simp only [applyPixelation]
  rw [if_pos hin]
  exact pixelate_eval (boxW box) (boxH box) (pixSub box img) _ _ hX hY

theorem blockMeanPixel_a (W H py px : ℕ) (d : ℕ → ℕ → Pixel) (X Y : ℕ) :
    (blockMeanPixel W H py px d X Y).a = (d X Y).a := rfl

/-- C5: inside the (rounded) region box, `applyPixelation` replaces every
pixel by the block value of the 24px grid block containing it: each of the
R, G and B channels is the rounded mean (`Math.round(sum / count)`) of that
channel over the block's *original* pixels, partial edge blocks using only
the pixels present (`blockMeanPixel` spells out exactly those means); the
alpha channel is unchanged; and any two pixels of the same block receive
identical R, G and B values. -/
theorem applyPixelation_block_mean (box : QBox) (img : Img) (i j : ℤ)
    (hin : inPixRect box i j) :
    applyPixelation box img i j =
      blockMeanPixel (boxW box) (boxH box)
        (PIXEL_SIZE * ((j - jsRound box.y).toNat / PIXEL_SIZE))
        (PIXEL_SIZE * ((i - jsRound box.x).toNat / PIXEL_SIZE))
        (pixSub box img)
        (i - jsRound box.x).toNat (j - jsRound box.y).toNat ∧
    (applyPixelation box img i j).a = (img i j).a ∧
    (∀ i2 j2 : ℤ, inPixRect box i2 j2 →
      (i2 - jsRound box.x).toNat / PIXEL_SIZE =
        (i - jsRound box.x).toNat / PIXEL_SIZE →
      (j2 - jsRound box.y).toNat / PIXEL_SIZE =
        (j - jsRound box.y).toNat / PIXEL_SIZE →
      (applyPixelation box img i2 j2).r = (applyPixelation box img i j).r ∧
      (applyPixelation box img i2 j2).g = (applyPixelation box img i j).g ∧
      (applyPixelation box img i2 j2).b = (applyPixelation box img i j).b) := by
  have hmain := applyPixelation_eval box img i j hin
  refine ⟨hmain, ?_, ?_⟩
  · rw [hmain, blockMeanPixel_a]
    have e1 : jsRound box.x + ((i - jsRound box.x).toNat : ℤ) = i := by
      simp only [inPixRect] at hin; omega
    have e2 : jsRound box.y + ((j - jsRound box.y).toNat : ℤ) = j := by
      simp only [inPixRect] at hin; omega
    simp only [pixSub]
    rw [e1, e2]
  · intro i2 j2 hin2 hdx hdy
    have hmain2 := applyPixelation_eval box img i2 j2 hin2
    rw [hmain, hmain2, hdx, hdy]
    exact ⟨rfl, rfl, rfl⟩

/-- A constant demo canvas for the concrete witnesses. -/
def demoImg : Img := fun _ _ => ⟨16, 32, 48, 64⟩

/-- Witness for `applyPixelation_block_mean` at a concrete input: a 4×4 box
at the origin over a constant canvas; the pixel at (1, 2) receives the
block mean 16 in the red channel and keeps its alpha 64. -/
theorem applyPixelation_block_mean_witness :
    inPixRect ⟨0, 0, 4, 4⟩ 1 2 ∧
    (applyPixelation ⟨0, 0, 4, 4⟩ demoImg 1 2).r = 16 ∧
    (applyPixelation ⟨0, 0, 4, 4⟩ demoImg 1 2).a = 64 := by
  have hin : inPixRect ⟨0, 0, 4, 4⟩ 1 2 := by
    simp only [inPixRect, boxW, boxH]
    norm_num [jsRound]
  have h := applyPixelation_block_mean ⟨0, 0, 4, 4⟩ demoImg 1 2 hin
  refine ⟨hin, ?_, ?_⟩
  · rw [h.1]
    simp only [blockMeanPixel]
    norm_num [jsRound, boxW, boxH, PIXEL_SIZE, blockSum, pixSub, demoImg,
      natRoundDiv, List.range_succ, Int.toNat_ofNat]
    decide
  · rw [h.2.1]
    rfl

/-- Ellipse centre x of `ctx.ellipse(x + width / 2, ...)` in
`applyGaussianBlur` (coordinates after the initial `Math.round`). -/
def gaussCX (box : QBox) : ℚ :=
  (jsRound box.x : ℚ) + (jsRound box.width : ℚ) / 2

/-- Ellipse centre y. -/
def gaussCY (box : QBox) : ℚ :=
  (jsRound box.y : ℚ) + (jsRound box.height : ℚ) / 2

/-- Ellipse x-radius `width / 2 + 10`. -/
def gaussRX (box : QBox) : ℚ := (jsRound box.width : ℚ) / 2 + 10

/-- Ellipse y-radius `height / 2 + 10`. -/
def gaussRY (box : QBox) : ℚ := (jsRound box.height : ℚ) / 2 + 10

/-- Membership in the elliptical clip path of `applyGaussianBlur`
(`((i - cx)/rx)² + ((j - cy)/ry)² ≤ 1`, multiplied through by `(rx·ry)²` to
stay in ℚ; for the positive radii arising from real boxes the forms
agree). -/
def inEllipse (box : QBox) (i j : ℤ) : Prop :=
  ((i : ℚ) - gaussCX box) ^ 2 * gaussRY box ^ 2 +
    ((j : ℚ) - gaussCY box) ^ 2 * gaussRX box ^ 2 ≤
      (gaussRX box * gaussRY box) ^ 2

instance (box : QBox) (i j : ℤ) : Decidable (inEllipse box i j) := by
  unfold inEllipse; infer_instance

/-- `applyGaussianBlur(ctx, box)` from `blur-utils`: after `ctx.clip()` to
the ellipse, the blurred redraw (`ctx.filter = blur(30px); ctx.drawImage`)
can only write pixels inside the clip path.  The browser's gaussian filter
itself is the excluded rendering collaborator, modelled by the opaque
`blurFn`; the clip boundary's antialiasing is abstracted to exact ellipse
membership.  (The write set is over-approximated by the full ellipse, which
only weakens nothing for the frame property: `blurFn` is arbitrary.) -/
def applyGaussianBlur (blurFn : Img → ℤ → ℤ → Pixel) (box : QBox)
    (img : Img) : Img :=
  fun i j => if inEllipse box i j then blurFn img i j else img i j

/-- A region as consumed by `applyBlurToFaces` — only the box and the
selection flag are read (`faces.filter(f => f.selected)`, `face.box`); both
detected faces and manual regions take this shape there. -/
structure Region where
  box : QBox
  selected : Bool
  deriving DecidableEq, Repr

/-- The `blurType` argument: `'gaussian'` selects the smooth blur, anything
else (the app passes `'pixelate'`) the pixelation branch. -/
inductive BlurType where
  | gaussian
  | pixelate
  deriving DecidableEq, Repr

/-- `applyBlurToFaces(canvas, faces, blurType)`: filter the region list to
the selected regions and apply the chosen per-region transform sequentially
in list order, each reading the canvas state left by the previous. -/
def applyBlurToFaces (blurFn : Img → ℤ → ℤ → Pixel) (faces : List Region)
    (blurType : BlurType) (canvas : Img) : Img :=
  (faces.filter (fun f => f.selected)).foldl
    (fun c face =>
      match blurType with
      | BlurType.gaussian => applyGaussianBlur blurFn face.box c
      | BlurType.pixelate => applyPixelation face.box c)
    canvas

/-- The gaussian bleed rectangle: the (rounded) region box expanded by the
10px ellipse margin on every side.  The clip ellipse is contained in it. -/
def inBleedRect (box : QBox) (i j : ℤ) : Prop :=
  jsRound box.x - 10 ≤ i ∧ i ≤ jsRound box.x + jsRound box.width + 10 ∧
  jsRound box.y - 10 ≤ j ∧ j ≤ jsRound box.y + jsRound box.height + 10

theorem applyPixelation_frame (box : QBox) (img : Img) (i j : ℤ)
    (h : ¬ inPixRect box i j) : applyPixelation box img i j = img i j := by
  simp only [applyPixelation]
  rw [if_neg h]

theorem applyGaussianBlur_frame (blurFn : Img → ℤ → ℤ → Pixel) (box : QBox)
    (img : Img) (i j : ℤ)
    (hw : 0 ≤ jsRound box.width) (hh : 0 ≤ jsRound box.height)
    (hout : ¬ inBleedRect box i j) :
    applyGaussianBlur blurFn box img i j = img i j := by
  simp only [applyGaussianBlur]
  rw [if_neg]
  intro hell
  apply hout
  simp only [inEllipse] at hell
  have hwq : (0 : ℚ) ≤ (jsRound box.width : ℚ) := by exact_mod_cast hw
  have hhq : (0 : ℚ) ≤ (jsRound box.height : ℚ) := by exact_mod_cast hh
  have hrx : (0 : ℚ) < gaussRX box := by
    simp only [gaussRX]; linarith
  have hry : (0 : ℚ) < gaussRY box := by
    simp only [gaussRY]; linarith
  have hB : (0 : ℚ) ≤ ((j : ℚ) - gaussCY box) ^ 2 * gaussRX box ^ 2 :=
    mul_nonneg (sq_nonneg _) (sq_nonneg _)
  have hA : (0 : ℚ) ≤ ((i : ℚ) - gaussCX box) ^ 2 * gaussRY box ^ 2 :=
    mul_nonneg (sq_nonneg _) (sq_nonneg _)
  have hmul : (gaussRX box * gaussRY box) ^ 2 =
      gaussRX box ^ 2 * gaussRY box ^ 2 := by ring
  have h1 : ((i : ℚ) - gaussCX box) ^ 2 ≤ gaussRX box ^ 2 := by
    have step : ((i : ℚ) - gaussCX box) ^ 2 * gaussRY box ^ 2 ≤
        gaussRX box ^ 2 * gaussRY box ^ 2 := by linarith
    exact le_of_mul_le_mul_right step (pow_pos hry 2)
  have h2 : ((j : ℚ) - gaussCY box) ^ 2 ≤ gaussRY box ^ 2 := by
    have step : ((j : ℚ) - gaussCY box) ^ 2 * gaussRX box ^ 2 ≤
        gaussRY box ^ 2 * gaussRX box ^ 2 := by linarith
    exact le_of_mul_le_mul_right step (pow_pos hrx 2)
  have hi1 : gaussCX box - gaussRX box ≤ (i : ℚ) := by nlinarith [h1, hrx]
  have hi2 : (i : ℚ) ≤ gaussCX box + gaussRX box := by nlinarith [h1, hrx]
  have hj1 : gaussCY box - gaussRY box ≤ (j : ℚ) := by nlinarith [h2, hry]
  have hj2 : (j : ℚ) ≤ gaussCY box + gaussRY box := by nlinarith [h2, hry]
  have ei1 : gaussCX box - gaussRX box = ((jsRound box.x - 10 : ℤ) : ℚ) := by
    simp only [gaussCX, gaussRX]; push_cast; ring
  have ei2 : gaussCX box + gaussRX box =
      ((jsRound box.x + jsRound box.width + 10 : ℤ) : ℚ) := by
    simp only [gaussCX, gaussRX]; push_cast; ring
  have ej1 : gaussCY box - gaussRY box = ((jsRound box.y - 10 : ℤ) : ℚ) := by
    simp only [gaussCY, gaussRY]; push_cast; ring
  have ej2 : gaussCY box + gaussRY box =
      ((jsRound box.y + jsRound box.height + 10 : ℤ) : ℚ) := by
    simp only [gaussCY, gaussRY]; push_cast; ring
  rw [ei1] at hi1
  rw [ei2] at hi2
  rw [ej1] at hj1
  rw [ej2] at hj2
  exact ⟨by exact_mod_cast hi1, by exact_mod_cast hi2,
    by exact_mod_cast hj1, by exact_mod_cast hj2⟩

theorem foldl_blur_frame (blurFn : Img → ℤ → ℤ → Pixel)
    (blurType : BlurType) (i j : ℤ) :
    ∀ (L : List Region) (canvas : Img),
      (∀ rg ∈ L, 0 ≤ jsRound rg.box.width ∧ 0 ≤ jsRound rg.box.height) →
      (∀ rg ∈ L,
        (blurType = BlurType.pixelate → ¬ inPixRect rg.box i j) ∧
        (blurType = BlurType.gaussian → ¬ inBleedRect rg.box i j)) →
      (L.foldl
        (fun c face =>
          match blurType with
          | BlurType.gaussian => applyGaussianBlur blurFn face.box c
          | BlurType.pixelate => applyPixelation face.box c)
        canvas) i j = canvas i j := by
  intro L
  induction L with
  | nil => intro canvas _ _; rfl
  | cons rg rest ih =>
      intro canvas hdims hout
      rw [List.foldl_cons,
        ih _ (fun r hr => hdims r (List.mem_cons_of_mem rg hr))
          (fun r hr => hout r (List.mem_cons_of_mem rg hr))]
      cases blurType with
      | gaussian =>
          exact applyGaussianBlur_frame blurFn rg.box canvas i j
            (hdims rg (List.mem_cons_self rg rest)).1
            (hdims rg (List.mem_cons_self rg rest)).2
            ((hout rg (List.mem_cons_self rg rest)).2 rfl)
      | pixelate =>
          exact applyPixelation_frame rg.box canvas i j
            ((hout rg (List.mem_cons_self rg rest)).1 rfl)

/-- C4: `applyBlurToFaces` only processes the selected regions, and a
canvas pixel lying outside every selected region's affected area — the
rounded region box for pixelation, the box expanded by the 10px ellipse
bleed margin for the gaussian style — keeps exactly its prior value; in
particular pixels covered only by unselected regions are untouched.  The
gaussian pixel values themselves come from the browser's filter, quantified
here as an arbitrary `blurFn`, so the frame holds for every possible blur.
(Real region boxes have non-negative rounded dimensions, the stated side
condition.) -/
theorem applyBlurToFaces_frame (blurFn : Img → ℤ → ℤ → Pixel)
    (faces : List Region) (blurType : BlurType) (canvas : Img) (i j : ℤ)
    (hdims : ∀ rg ∈ faces, rg.selected = true →
      0 ≤ jsRound rg.box.width ∧ 0 ≤ jsRound rg.box.height)
    (hout : ∀ rg ∈ faces, rg.selected = true →
      (blurType = BlurType.pixelate → ¬ inPixRect rg.box i j) ∧
      (blurType = BlurType.gaussian → ¬ inBleedRect rg.box i j)) :
    applyBlurToFaces blurFn faces blurType canvas i j = canvas i j := by
  unfold applyBlurToFaces
  apply foldl_blur_frame
  · intro rg hrg
    have hm := List.mem_filter.mp hrg
    exact hdims rg hm.1 hm.2
  · intro rg hrg
    have hm := List.mem_filter.mp hrg
    exact hout rg hm.1 hm.2

/-- A selected demo region for the C4 witness. -/
def demoRegion : Region := { box := ⟨0, 0, 30, 30⟩, selected := true }

/-- Witness for `applyBlurToFaces_frame` at a concrete input: pixelating the
selected 30×30 region at the origin leaves the pixel at (40, 40) — outside
the box — bit-identical. -/
theorem applyBlurToFaces_frame_witness :
    applyBlurToFaces (fun _ _ _ => ⟨0, 0, 0, 0⟩) [demoRegion]
        BlurType.pixelate demoImg 40 40 = demoImg 40 40 := by
  apply applyBlurToFaces_frame
  · intro rg hrg _
    rw [List.mem_singleton] at hrg
    subst hrg
    constructor <;> norm_num [demoRegion, jsRound]
  · intro rg hrg _
    rw [List.mem_singleton] at hrg
    subst hrg
    constructor
    · intro _
      simp only [inPixRect, demoRegion, boxW, boxH]
      norm_num [jsRound]
    · intro hbt
      exact absurd hbt (by simp)
